import Mathlib

/-!
Shallow embedding of `src/thue.py`, a small Thue string-rewriting
interpreter.  Python strings are modelled as `List Char`; `str.find` as
`pyFind`; standard input as a list of (already newline-stripped) lines;
standard output as an accumulated character list.  Each call to
`random.choice` is modelled by an explicit choice value `k : Nat`: picking
from a list `l` returns `l[k % l.length]`, so every element is reachable
by some choice value and every choice value denotes an element;
`random.choice` on an empty sequence raises `IndexError`, modelled as
`none`.
-/

namespace Thue

/-- Python strings are modelled as lists of characters. -/
abbrev Str := List Char

/-- The `Rule` class of `thue.py`: it stores `lhs` and `rhs` verbatim. -/
structure Rule where
  lhs : Str
  rhs : Str
deriving DecidableEq

/-- Python `s.find(p)`: the least index at which `p` occurs in `s` as a
literal substring (`some i`), or `none` where Python returns `-1`.
Python returns `0` for an empty `p`, matched by the first branch. -/
def pyFind (s p : Str) : Option Nat :=
  if p <+: s then some 0
  else
    match s with
    | [] => none
    | _ :: t => (pyFind t p).map (· + 1)

/-- `applicable_rules(rulebase, s)` of `thue.py`: every rule of the
rulebase whose `lhs` occurs in `s` (`s.find(rule.lhs) != -1`), kept in
rulebase order. -/
def applicable_rules (rulebase : List Rule) (s : Str) : List Rule :=
  match rulebase with
  | [] => []
  | rule :: rest =>
    if pyFind s rule.lhs ≠ none then rule :: applicable_rules rest s
    else applicable_rules rest s

/-- The while loop of `find_occurences(s, substr)` in `thue.py`: record
`i + offset` for the first occurrence `i` of `substr` in the remaining
string, then continue after the end of that occurrence.  `fuel` bounds
the number of iterations; the Python loop has no such bound and diverges
when `substr` is empty (`findOccAux_nil_pattern`), modelled by `none`
when the fuel runs out. -/
def findOccAux : Nat → Str → Str → Nat → Option (List Nat)
  | 0, _, _, _ => none
  | fuel + 1, s, substr, offset =>
    match pyFind s substr with
    | none => some []
    | some i =>
      (findOccAux fuel (s.drop (i + substr.length)) substr
          (offset + (i + substr.length))).map
        (fun rest => (i + offset) :: rest)

/-- `find_occurences(s, substr)` of `thue.py`.  For non-empty `substr`
the fuel `s.length + 1` always suffices (`findOccAux_isSome`), so the
`getD []` default is never taken; for the empty pattern the Python loop
diverges and the default stands in for the missing value. -/
def find_occurences (s substr : Str) : List Nat :=
  (findOccAux (s.length + 1) s substr 0).getD []

/-- Model of `random.choice(l)` under an explicit choice value `k`:
the element `l[k % l.length]`.  Callers check emptiness separately
(Python raises `IndexError` on an empty sequence), so the default `d`
is never reached at a call site. -/
def chooseFrom {α : Type} (l : List α) (k : Nat) (d : α) : α :=
  l.getD (k % l.length) d

/-- The interpreter state around the current string: the string itself,
the lines remaining on standard input (newline-stripped, as Python's
`input()` returns them), and the characters written to standard output
so far. -/
structure EState where
  s : Str
  inp : List Str
  out : Str
deriving DecidableEq

/-- `apply(rule, string)` of `thue.py`, with the `random.choice` call
made explicit as the choice value `k` and console I/O threaded through
the state.  `none` models the places where the Python code dies: an
`IndexError` from `random.choice` on an empty occurrence list, or an
exhausted standard input at `input()` (the spec's `EndOfInputError`).
The guard `rule.rhs.head? = some '~'` is Python's
`rule.rhs != '' and rule.rhs[0] == '~'`. -/
def apply (rule : Rule) (st : EState) (k : Nat) : Option EState :=
  let occurences := find_occurences st.s rule.lhs
  if occurences = [] then none
  else
    let i := chooseFrom occurences k 0
    let left := st.s.take i
    let right := st.s.drop (i + rule.lhs.length)
    if rule.rhs = ":::".toList then
      match st.inp with
      | [] => none
      | line :: rest => some ⟨left ++ line ++ right, rest, st.out⟩
    else if rule.rhs.head? = some '~' then
      some ⟨left ++ right, st.inp, st.out ++ rule.rhs.drop 1⟩
    else
      some ⟨left ++ rule.rhs ++ right, st.inp, st.out⟩

/-- `execute(rulebase, string, is_verbose)` of `thue.py`.  The verbose
branch only sleeps and prints a trace line, so it is dropped here.  The
random choices are drawn from the stream `cs`: each loop step uses `cs 0`
to pick among the applicable rules and `cs 1` to pick the occurrence
inside `apply`, then shifts the stream by two.  The Python function
prints the final string and returns `None`; the model returns the final
state, whose `.s` field is that printed string.  `fuel` bounds the number
of loop iterations, with `none` when it runs out or `apply` dies. -/
def execute : Nat → List Rule → EState → (Nat → Nat) → Option EState
  | 0, _, _, _ => none
  | fuel + 1, rulebase, st, cs =>
    let rules := applicable_rules rulebase st.s
    if rules = [] then some st
    else
      match apply (chooseFrom rules (cs 0) ⟨[], []⟩) st (cs 1) with
      | none => none
      | some st' => execute fuel rulebase st' (fun n => cs (n + 2))

/-- Python `str.rstrip()`: the string without its trailing whitespace. -/
def rstrip (l : Str) : Str :=
  (l.reverse.dropWhile Char.isWhitespace).reverse

/-- The separator `::=` of rule lines. -/
def sep : Str := "::=".toList

/-- Index of the last occurrence of `p` in `l`, or `none` when `p` does
not occur.  This is where the greedy regex `(.*)::=(.*)` used by
`read_rulebase` splits a rule line: the first `(.*)` grabs as much as
possible, so the `lhs` group runs up to the last `::=` of the line, and
the regex matches exactly when `::=` occurs at all. -/
def lastMatchIdx (l p : Str) : Option Nat :=
  ((List.range (l.length + 1)).filter (fun i => decide (p <+: l.drop i))).getLast?

/-- The fatal conditions `read_rulebase` reports through `error(...)`
(which prints a message with the line number and exits with status 1). -/
inductive ThueError where
  | malformedLine (lineno : Nat) (line : Str)
  | unterminated (lineno : Nat)
deriving DecidableEq

/-- `read_rulebase(file)` of `thue.py`, over the file's lines.  `lineno`
starts at 1.  A line that is empty after `rstrip`, or whitespace-only, is
skipped; a line without `::=` is a fatal parse error; a line whose `lhs`
group is empty terminates the rulebase, discarding that line's `rhs`;
running out of lines without a terminator is a fatal error. -/
def readRulebaseAux : List Str → Nat → Except ThueError (List Rule)
  | [], lineno => .error (.unterminated lineno)
  | rawLine :: rest, lineno =>
    let line := rstrip rawLine
    if line = [] ∨ line.all Char.isWhitespace then
      readRulebaseAux rest (lineno + 1)
    else
      match lastMatchIdx line sep with
      | none => .error (.malformedLine lineno line)
      | some i =>
        let lhs := line.take i
        let rhs := line.drop (i + sep.length)
        if lhs = [] then .ok []
        else (readRulebaseAux rest (lineno + 1)).map (fun rb => Rule.mk lhs rhs :: rb)

/-- `read_rulebase` as called by `read_program`: line numbers start at 1. -/
def read_rulebase (lines : List Str) : Except ThueError (List Rule) :=
  readRulebaseAux lines 1

/-! ### Properties of `pyFind` -/

/-- `s.find(p)` succeeds exactly when `p` occurs in `s` as a substring. -/
lemma pyFind_isSome_iff : ∀ (s p : Str), (pyFind s p).isSome ↔ p <:+: s := by
  intro s
  induction s with
  | nil =>
    intro p
    rw [pyFind]
    by_cases hp : p <+: ([] : Str)
    · simp only [if_pos hp, Option.isSome_some, true_iff]
      exact hp.isInfix
    · simp only [if_neg hp, Option.isSome_none, Bool.false_eq_true, false_iff]
      intro hinf
      obtain ⟨u, v, huv⟩ := hinf
      obtain ⟨h1, -⟩ := List.append_eq_nil.mp huv
      obtain ⟨-, h3⟩ := List.append_eq_nil.mp h1
      exact hp (h3 ▸ List.nil_prefix)
  | cons c t ih =>
    intro p
    rw [pyFind]
    by_cases hp : p <+: c :: t
    · simp only [if_pos hp, Option.isSome_some, true_iff]
      exact hp.isInfix
    · simp only [if_neg hp, Option.isSome_map']
      rw [ih p, List.infix_cons_iff]
      constructor
      · exact Or.inr
      · rintro (h | h)
        · exact absurd h hp
        · exact h

/-- Where `s.find(p)` points, `p` is present. -/
lemma pyFind_prefix_drop (p : Str) : ∀ (s : Str) (i : Nat),
    pyFind s p = some i → p <+: s.drop i := by
  intro s
  induction s with
  | nil =>
    intro i h
    rw [pyFind] at h
    by_cases hp : p <+: ([] : Str)
    · rw [if_pos hp] at h
      obtain rfl : (0 : Nat) = i := by simpa using h
      simpa using hp
    · rw [if_neg hp] at h
      simp at h
  | cons c t ih =>
    intro i h
    rw [pyFind] at h
    by_cases hp : p <+: c :: t
    · rw [if_pos hp] at h
      obtain rfl : (0 : Nat) = i := by simpa using h
      simpa using hp
    · rw [if_neg hp] at h
      obtain ⟨j, hj, rfl⟩ := Option.map_eq_some'.mp h
      simpa using ih j hj

/-- A successful find on a non-empty pattern fits inside the string. -/
lemma pyFind_bound (s p : Str) (i : Nat) (hp : p ≠ []) (h : pyFind s p = some i) :
    i + p.length ≤ s.length := by
  have hpre := pyFind_prefix_drop p s i h
  have h1 : p.length ≤ s.length - i := by
    simpa using hpre.length_le
  have h2 : 1 ≤ p.length := List.length_pos.mpr hp
  omega

/-! ### Properties of `findOccAux` and `find_occurences` -/

/-- Soundness of one pass of the occurrence loop: every recorded offset
is at least the running offset, points at an occurrence of the pattern
in the original string, and consecutive offsets are at least a pattern
length apart. -/
lemma findOccAux_sound : ∀ (fuel : Nat) (s p : Str) (off : Nat) (l : List Nat),
    findOccAux fuel s p off = some l →
    (∀ o ∈ l, off ≤ o ∧ p <+: s.drop (o - off)) ∧
      l.Chain' (fun a b => a + p.length ≤ b) := by
  intro fuel
  induction fuel with
  | zero =>
    intro s p off l h
    simp [findOccAux] at h
  | succ fuel ih =>
    intro s p off l h
    rw [findOccAux] at h
    cases hf : pyFind s p with
    | none =>
      rw [hf] at h
      obtain rfl : ([] : List Nat) = l := Option.some_inj.mp h
      simp
    | some i =>
      rw [hf] at h
      obtain ⟨rest, hrest, rfl⟩ := Option.map_eq_some'.mp h
      obtain ⟨hmem, hchain⟩ := ih _ _ _ _ hrest
      constructor
      · intro o ho
        rcases List.mem_cons.mp ho with rfl | ho
        · refine ⟨by omega, ?_⟩
          have := pyFind_prefix_drop p s i hf
          simpa using this
        · obtain ⟨h1, h2⟩ := hmem o ho
          refine ⟨by omega, ?_⟩
          rw [List.drop_drop] at h2
          have heq : i + p.length + (o - (off + (i + p.length))) = o - off := by omega
          rwa [heq] at h2
      · cases rest with
        | nil => simp
        | cons r rs =>
          refine List.chain'_cons.mpr ⟨?_, hchain⟩
          have := (hmem r (by simp)).1
          omega

/-- For a non-empty pattern the loop finishes once the fuel exceeds the
length of the remaining string: each iteration removes at least one
character. -/
lemma findOccAux_isSome (p : Str) (hp : p ≠ []) :
    ∀ (fuel : Nat) (s : Str) (off : Nat), s.length < fuel →
      (findOccAux fuel s p off).isSome := by
  intro fuel
  induction fuel with
  | zero =>
    intro s off h
    omega
  | succ fuel ih =>
    intro s off h
    rw [findOccAux]
    cases hf : pyFind s p with
    | none => simp
    | some i =>
      simp only [Option.isSome_map']
      apply ih
      have hb := pyFind_bound s p i hp hf
      have h2 : 1 ≤ p.length := List.length_pos.mpr hp
      simp only [List.length_drop]
      omega

/-- With an empty pattern the loop never exits: `s.find('')` is `0` and
the remaining string never shrinks, so every fuel budget runs out.  This
is the shadow of the Python non-termination. -/
lemma findOccAux_nil_pattern : ∀ (fuel : Nat) (s : Str) (off : Nat),
    findOccAux fuel s ([] : Str) off = none := by
  intro fuel
  induction fuel with
  | zero =>
    intro s off
    rfl
  | succ fuel ih =>
    intro s off
    rw [findOccAux]
    have h0 : pyFind s ([] : Str) = some 0 := by
      rw [pyFind.eq_def]
      simp
    rw [h0]
    simp [ih]

/-- For a non-empty pattern, `find_occurences` is the value computed by
the loop under the default fuel. -/
lemma find_occurences_eq_some (s p : Str) (hp : p ≠ []) :
    findOccAux (s.length + 1) s p 0 = some (find_occurences s p) := by
  have h := findOccAux_isSome p hp (s.length + 1) s 0 (by omega)
  obtain ⟨l, hl⟩ := Option.isSome_iff_exists.mp h
  rw [find_occurences, hl]
  rfl

/-- The occurrence list is non-empty exactly when `s.find` succeeds
(non-empty patterns). -/
lemma find_occurences_ne_nil (s p : Str) (hp : p ≠ []) :
    find_occurences s p ≠ [] ↔ pyFind s p ≠ none := by
  have hsome := find_occurences_eq_some s p hp
  rw [findOccAux] at hsome
  cases hf : pyFind s p with
  | none =>
    rw [hf] at hsome
    obtain h : some ([] : List Nat) = some (find_occurences s p) := hsome
    simp_all
  | some i =>
    rw [hf] at hsome
    obtain ⟨rest, -, hcons⟩ := Option.map_eq_some'.mp hsome
    constructor
    · intro _
      simp [hf]
    · intro _
      rw [← hcons]
      simp

/-! ### Properties of `applicable_rules` -/

/-- The applicability scan is the substring filter over the rulebase. -/
lemma applicable_rules_eq_filter (rb : List Rule) (s : Str) :
    applicable_rules rb s = rb.filter (fun r => decide (r.lhs <:+: s)) := by
  induction rb with
  | nil => rfl
  | cons r rest ih =>
    rw [applicable_rules]
    by_cases h : pyFind s r.lhs ≠ none
    · rw [if_pos h, ih, List.filter_cons_of_pos]
      simp only [decide_eq_true_eq]
      rw [← pyFind_isSome_iff]
      exact Option.ne_none_iff_isSome.mp h
    · rw [if_neg h, ih, List.filter_cons_of_neg]
      simp only [decide_eq_true_eq]
      rw [← pyFind_isSome_iff]
      simp only [not_not] at h
      simp [h]

/-! ### Properties of `chooseFrom` -/

/-- The choice made from a non-empty list is an element of the list. -/
lemma chooseFrom_mem {α : Type} (l : List α) (k : Nat) (d : α) (h : l ≠ []) :
    chooseFrom l k d ∈ l := by
  rw [chooseFrom]
  have hlen : 0 < l.length := List.length_pos.mpr h
  have hk : k % l.length < l.length := Nat.mod_lt _ hlen
  rw [List.getD_eq_getElem l d hk]
  exact List.getElem_mem hk

/-- Every element of the list is picked by some choice value. -/
lemma chooseFrom_surj {α : Type} (l : List α) (d : α) (o : α) (ho : o ∈ l) :
    ∃ k, chooseFrom l k d = o := by
  obtain ⟨i, hi, rfl⟩ := List.getElem_of_mem ho
  refine ⟨i, ?_⟩
  rw [chooseFrom, Nat.mod_eq_of_lt hi, List.getD_eq_getElem l d hi]

/-- Picking from a one-element list is deterministic. -/
lemma chooseFrom_singleton {α : Type} (x : α) (k : Nat) (d : α) :
    chooseFrom [x] k d = x := by
  rw [chooseFrom]
  simp [Nat.mod_one]

/-! ### The three branches of `apply` -/

/-- A plain substitution: the rhs is neither the input marker nor
output-marked, so the chosen occurrence is replaced by the rhs verbatim
and the console state is untouched. -/
lemma apply_subst_eq (rule : Rule) (st : EState) (k : Nat)
    (h1 : rule.rhs ≠ ":::".toList) (h2 : rule.rhs.head? ≠ some '~')
    (h3 : find_occurences st.s rule.lhs ≠ []) :
    apply rule st k =
      some ⟨st.s.take (chooseFrom (find_occurences st.s rule.lhs) k 0) ++ rule.rhs ++
          st.s.drop (chooseFrom (find_occurences st.s rule.lhs) k 0 + rule.lhs.length),
        st.inp, st.out⟩ := by
  rw [apply]
  simp only [if_neg h3, if_neg h1, if_neg h2]

/-- An output rule: the chosen occurrence is deleted and the rhs without
its leading `~` is appended to the output channel. -/
lemma apply_out_eq (rule : Rule) (st : EState) (k : Nat)
    (h2 : rule.rhs.head? = some '~')
    (h3 : find_occurences st.s rule.lhs ≠ []) :
    apply rule st k =
      some ⟨st.s.take (chooseFrom (find_occurences st.s rule.lhs) k 0) ++
          st.s.drop (chooseFrom (find_occurences st.s rule.lhs) k 0 + rule.lhs.length),
        st.inp, st.out ++ rule.rhs.drop 1⟩ := by
  have h1 : rule.rhs ≠ ":::".toList := by
    intro he
    rw [he] at h2
    exact absurd h2 (by decide)
  rw [apply]
  simp only [if_neg h3, if_neg h1, if_pos h2]

/-- An input rule: the chosen occurrence is replaced by the first line of
the remaining input, which is consumed. -/
lemma apply_in_eq (rule : Rule) (st : EState) (k : Nat) (line : Str) (rest : List Str)
    (h1 : rule.rhs = ":::".toList) (hin : st.inp = line :: rest)
    (h3 : find_occurences st.s rule.lhs ≠ []) :
    apply rule st k =
      some ⟨st.s.take (chooseFrom (find_occurences st.s rule.lhs) k 0) ++ line ++
          st.s.drop (chooseFrom (find_occurences st.s rule.lhs) k 0 + rule.lhs.length),
        rest, st.out⟩ := by
  rw [apply]
  simp only [if_neg h3, if_pos h1, hin]

/-! ### The `execute` loop -/

/-- When no rule is applicable, the loop returns the state unchanged. -/
lemma execute_halt (rulebase : List Rule) (st : EState) (cs : Nat → Nat) (fuel : Nat)
    (h : applicable_rules rulebase st.s = []) :
    execute (fuel + 1) rulebase st cs = some st := by
  rw [execute]
  simp [h]

/-- One successful loop iteration: pick a rule, apply it, continue on the
new state with the choice stream shifted by two. -/
lemma execute_step (fuel : Nat) (rulebase : List Rule) (st st' : EState) (cs : Nat → Nat)
    (h : applicable_rules rulebase st.s ≠ [])
    (ha : apply (chooseFrom (applicable_rules rulebase st.s) (cs 0) ⟨[], []⟩) st (cs 1) =
      some st') :
    execute (fuel + 1) rulebase st cs = execute fuel rulebase st' (fun n => cs (n + 2)) := by
  rw [execute]
  simp only [if_neg h, ha]

/-! ### The deletion rulebase `a ::= ` -/

/-- A one-character pattern occurs as a substring exactly when the
character is in the string. -/
lemma singleton_occurs_iff_mem (c : Char) (s : Str) : [c] <:+: s ↔ c ∈ s := by
  constructor
  · rintro ⟨u, v, rfl⟩
    simp
  · intro hc
    obtain ⟨u, v, rfl⟩ := List.append_of_mem hc
    exact ⟨u, v, by simp⟩

/-- A one-rule rulebase is inapplicable exactly when its pattern does not
occur. -/
lemma applicable_delete (r : Rule) (s : Str) :
    applicable_rules [r] s = [] ↔ ¬ r.lhs <:+: s := by
  rw [applicable_rules_eq_filter]
  simp

/-- A one-rule rulebase whose pattern occurs is applicable. -/
lemma applicable_singleton_pos (r : Rule) (s : Str) (h : r.lhs <:+: s) :
    applicable_rules [r] s = [r] := by
  rw [applicable_rules_eq_filter]
  simp [h]

/-- Removing one `'a'` preserves the `'a'`-free residue and lowers the
`'a'` count by one. -/
lemma filter_count_splice (L R : Str) :
    ((L ++ R).filter (fun c => decide (c ≠ 'a')) =
        (L ++ 'a' :: R).filter (fun c => decide (c ≠ 'a'))) ∧
      (L ++ R).count 'a' + 1 = (L ++ 'a' :: R).count 'a' := by
  constructor
  · simp [List.filter_append]
  · simp [List.count_append, List.count_cons_self]
    omega

/-- A string splits around a matched one-character occurrence. -/
lemma eq_take_cons_drop (s : Str) (o : Nat) (h : ['a'] <+: s.drop o) :
    s = s.take o ++ 'a' :: s.drop (o + 1) := by
  obtain ⟨t, ht⟩ := h
  have hdd := List.drop_drop 1 o s
  rw [← ht] at hdd
  simp at hdd
  conv_lhs => rw [← List.take_append_drop o s]
  rw [← ht, hdd]
  rfl

/-- Every offset reported by `find_occurences` (non-empty pattern) points
at an occurrence lying inside the string. -/
lemma find_occurences_mem_sound (s p : Str) (hp : p ≠ []) (o : Nat)
    (ho : o ∈ find_occurences s p) :
    p <+: s.drop o ∧ o + p.length ≤ s.length := by
  have h := findOccAux_sound (s.length + 1) s p 0 (find_occurences s p)
    (find_occurences_eq_some s p hp)
  obtain ⟨-, h2⟩ := h.1 o ho
  rw [Nat.sub_zero] at h2
  refine ⟨h2, ?_⟩
  have h3 := h2.length_le
  rw [List.length_drop] at h3
  have h4 : 1 ≤ p.length := List.length_pos.mpr hp
  omega

/-- Running the one-rule rulebase that deletes `'a'` removes the `'a'`s
one at a time, in whatever order the choices dictate, and always ends at
the `'a'`-free residue of the start string; `count 'a' < fuel` iterations
suffice. -/
lemma delete_a_execute : ∀ (fuel : Nat) (s : Str) (inp : List Str) (out : Str) (cs : Nat → Nat),
    s.count 'a' < fuel →
    execute fuel [⟨['a'], []⟩] ⟨s, inp, out⟩ cs =
      some ⟨s.filter (fun c => decide (c ≠ 'a')), inp, out⟩ := by
  intro fuel
  induction fuel with
  | zero =>
    intro s inp out cs h
    omega
  | succ f ih =>
    intro s inp out cs h
    by_cases hap : applicable_rules [(⟨['a'], []⟩ : Rule)] s = []
    · rw [execute_halt _ _ _ _ hap]
      have hmem : 'a' ∉ s := by
        intro hc
        exact (applicable_delete _ s).mp hap ((singleton_occurs_iff_mem 'a' s).mpr hc)
      have hfil : s.filter (fun c => decide (c ≠ 'a')) = s := by
        apply List.filter_eq_self.mpr
        intro c hc
        simp only [decide_eq_true_eq]
        rintro rfl
        exact hmem hc
      rw [hfil]
    · have hinf : (⟨['a'], []⟩ : Rule).lhs <:+: s := by
        by_contra hni
        exact hap ((applicable_delete _ s).mpr hni)
      have hrules : applicable_rules [(⟨['a'], []⟩ : Rule)] s = [⟨['a'], []⟩] :=
        applicable_singleton_pos _ _ hinf
      have hne : find_occurences s ['a'] ≠ [] := by
        rw [find_occurences_ne_nil s ['a'] (by decide)]
        exact Option.ne_none_iff_isSome.mpr ((pyFind_isSome_iff s ['a']).mpr hinf)
      have ho : chooseFrom (find_occurences s ['a']) (cs 1) 0 ∈ find_occurences s ['a'] :=
        chooseFrom_mem _ _ _ hne
      obtain ⟨hpre, -⟩ := find_occurences_mem_sound s ['a'] (by decide) _ ho
      have hs := eq_take_cons_drop s _ hpre
      have hstep : execute (f + 1) [(⟨['a'], []⟩ : Rule)] ⟨s, inp, out⟩ cs =
          execute f [⟨['a'], []⟩]
            ⟨s.take (chooseFrom (find_occurences s ['a']) (cs 1) 0) ++
                s.drop (chooseFrom (find_occurences s ['a']) (cs 1) 0 + 1),
              inp, out⟩
            (fun n => cs (n + 2)) := by
        apply execute_step
        · exact hap
        · rw [show applicable_rules [(⟨['a'], []⟩ : Rule)] (⟨s, inp, out⟩ : EState).s =
              [⟨['a'], []⟩] from hrules]
          rw [chooseFrom_singleton]
          rw [apply_subst_eq _ _ _ (by decide) (by decide) hne]
          simp
      have hcnt : (s.take (chooseFrom (find_occurences s ['a']) (cs 1) 0) ++
          s.drop (chooseFrom (find_occurences s ['a']) (cs 1) 0 + 1)).count 'a' + 1 =
          s.count 'a' := by
        have h2 := (filter_count_splice (s.take (chooseFrom (find_occurences s ['a']) (cs 1) 0))
          (s.drop (chooseFrom (find_occurences s ['a']) (cs 1) 0 + 1))).2
        rw [← hs] at h2
        exact h2
      rw [hstep, ih _ inp out _ (by omega)]
      have h3 := (filter_count_splice (s.take (chooseFrom (find_occurences s ['a']) (cs 1) 0))
        (s.drop (chooseFrom (find_occurences s ['a']) (cs 1) 0 + 1))).1
      rw [← hs] at h3
      rw [h3]

/-! ### Properties of `read_rulebase` -/

/-- Every rule stored by a successful `read_rulebase` run has a non-empty
left-hand side: an empty `lhs` is the rulebase terminator and is never
appended. -/
lemma readRulebaseAux_lhs_ne_nil : ∀ (lines : List Str) (n : Nat) (rb : List Rule),
    readRulebaseAux lines n = Except.ok rb → ∀ r ∈ rb, r.lhs ≠ [] := by
  intro lines
  induction lines with
  | nil =>
    intro n rb h
    simp [readRulebaseAux] at h
  | cons line rest ih =>
    intro n rb h
    simp only [readRulebaseAux] at h
    split at h
    · exact ih _ _ h
    · split at h
      · exact absurd h (by simp)
      · split at h
        · obtain rfl : ([] : List Rule) = rb := by simpa using h
          simp
        · next hlhs =>
          cases hrec : readRulebaseAux rest (n + 1) with
          | error e =>
            rw [hrec] at h
            exact absurd h (by simp [Except.map])
          | ok rb' =>
            rw [hrec] at h
            simp only [Except.map] at h
            obtain rfl := Except.ok.inj h
            intro r hr
            rcases List.mem_cons.mp hr with rfl | hr
            · exact hlhs
            · exact ih _ _ hrec r hr

/-! ### The claims -/

/-- C1: for every rulebase `rb` and string `s`, `applicable_rules rb s`
returns, in rulebase order, exactly those rules whose pattern occurs at
least once as a literal substring of `s`; in particular it is empty iff
no rule's pattern occurs as a substring of `s`, and being a pure function
of its arguments the predicate is deterministic. -/
theorem C1_applicable_rules_spec (rb : List Rule) (s : Str) :
    applicable_rules rb s = rb.filter (fun r => decide (r.lhs <:+: s)) ∧
      (applicable_rules rb s = [] ↔ ∀ r ∈ rb, ¬ r.lhs <:+: s) := by
  refine ⟨applicable_rules_eq_filter rb s, ?_⟩
  rw [applicable_rules_eq_filter]
  simp [List.filter_eq_nil_iff]

/-- C2: for a non-empty pattern `p`, every offset returned by
`find_occurences s p` points at an occurrence of `p` lying inside `s`,
the offsets are strictly increasing, consecutive offsets never overlap
(they are at least `p.length` apart), and
`find_occurences "aaaa" "aa" = [0, 2]`. -/
theorem C2_find_occurences_spec (s p : Str) (hp : p ≠ []) :
    (∀ o ∈ find_occurences s p,
        (s.drop o).take p.length = p ∧ o + p.length ≤ s.length) ∧
      (find_occurences s p).Chain' (fun a b => a + p.length ≤ b) ∧
      (find_occurences s p).Chain' (· < ·) ∧
      find_occurences "aaaa".toList "aa".toList = [0, 2] := by
  have hsound := findOccAux_sound (s.length + 1) s p 0 (find_occurences s p)
    (find_occurences_eq_some s p hp)
  refine ⟨?_, hsound.2, ?_, by decide⟩
  · intro o ho
    obtain ⟨hpre, hle⟩ := find_occurences_mem_sound s p hp o ho
    refine ⟨?_, hle⟩
    obtain ⟨t, ht⟩ := hpre
    rw [← ht]
    exact List.take_left _ _
  · refine List.Chain'.imp ?_ hsound.2
    intro a b hab
    have h1 : 1 ≤ p.length := List.length_pos.mpr hp
    omega

/-- C2 witness: the concrete example from the claim. -/
theorem C2_find_occurences_spec_witness :
    find_occurences "aaaa".toList "aa".toList = [0, 2] :=
  (C2_find_occurences_spec "aaaa".toList "aa".toList (by decide)).2.2.2

/-- C3: a `Substitute` rule (rhs neither `:::` nor starting with `~`)
applied at the chosen occurrence offset `o` of its pattern in `s` yields
`s[0,o) ++ rhs ++ s[o+len(lhs),len(s))` with no side effect (input and
output are untouched), for every choice value; and every occurrence
offset is the chosen one under some choice value. -/
theorem C3_apply_substitute (rule : Rule) (s : Str) (inp : List Str) (out : Str)
    (h1 : rule.rhs ≠ ":::".toList) (h2 : rule.rhs.head? ≠ some '~')
    (h3 : find_occurences s rule.lhs ≠ []) :
    (∀ k : Nat,
        chooseFrom (find_occurences s rule.lhs) k 0 ∈ find_occurences s rule.lhs ∧
          apply rule ⟨s, inp, out⟩ k =
            some ⟨s.take (chooseFrom (find_occurences s rule.lhs) k 0) ++ rule.rhs ++
                s.drop (chooseFrom (find_occurences s rule.lhs) k 0 + rule.lhs.length),
              inp, out⟩) ∧
      ∀ o ∈ find_occurences s rule.lhs,
        ∃ k, chooseFrom (find_occurences s rule.lhs) k 0 = o := by
  refine ⟨fun k => ⟨chooseFrom_mem _ _ _ h3, ?_⟩, fun o ho => chooseFrom_surj _ _ o ho⟩
  exact apply_subst_eq rule ⟨s, inp, out⟩ k h1 h2 h3

/-- C3 witness: the spec's example, rule `ab ::= ba` on `xaby`. -/
theorem C3_apply_substitute_witness :
    apply ⟨"ab".toList, "ba".toList⟩ ⟨"xaby".toList, [], []⟩ 0 =
      some ⟨"xbay".toList, [], []⟩ := by
  have h := ((C3_apply_substitute ⟨"ab".toList, "ba".toList⟩ "xaby".toList [] []
    (by decide) (by decide) (by decide)).1 0).2
  rw [h]
  decide

/-- C4: a rule selected by the applicability test has a non-empty
occurrence list, so the occurrence selection inside `apply` never
operates on an empty sequence; the applicability test and
`find_occurences` agree on the substring predicate.  (The non-empty
pattern hypothesis reflects the rulebase invariant of C7; on an empty
pattern the Python occurrence loop would diverge instead.) -/
theorem C4_applicable_occurrences (rb : List Rule) (s : Str) (r : Rule)
    (hr : r ∈ applicable_rules rb s) (hlhs : r.lhs ≠ []) :
    find_occurences s r.lhs ≠ [] ∧
      (find_occurences s r.lhs ≠ [] ↔ r.lhs <:+: s) := by
  have hmem : r.lhs <:+: s := by
    rw [applicable_rules_eq_filter] at hr
    have h2 := (List.mem_filter.mp hr).2
    simpa using h2
  have hiff : find_occurences s r.lhs ≠ [] ↔ r.lhs <:+: s := by
    rw [find_occurences_ne_nil s r.lhs hlhs, Option.ne_none_iff_isSome, pyFind_isSome_iff]
  exact ⟨hiff.mpr hmem, hiff⟩

/-- C4 witness: the deletion rule on `banana`. -/
theorem C4_applicable_occurrences_witness :
    find_occurences "banana".toList "a".toList ≠ [] :=
  (C4_applicable_occurrences [⟨"a".toList, "x".toList⟩] "banana".toList
    ⟨"a".toList, "x".toList⟩ (by decide) (by decide)).1

/-- C5: a `WriteOutput` rule (rhs non-empty, starting with `~`) applied
at the chosen occurrence offset deletes the matched occurrence, inserts
nothing, and emits the rhs without its leading `~` to standard output;
every occurrence offset is reachable by some choice value. -/
theorem C5_apply_write_output (rule : Rule) (s : Str) (inp : List Str) (out : Str)
    (h2 : rule.rhs.head? = some '~')
    (h3 : find_occurences s rule.lhs ≠ []) :
    (∀ k : Nat,
        chooseFrom (find_occurences s rule.lhs) k 0 ∈ find_occurences s rule.lhs ∧
          apply rule ⟨s, inp, out⟩ k =
            some ⟨s.take (chooseFrom (find_occurences s rule.lhs) k 0) ++
                s.drop (chooseFrom (find_occurences s rule.lhs) k 0 + rule.lhs.length),
              inp, out ++ rule.rhs.drop 1⟩) ∧
      ∀ o ∈ find_occurences s rule.lhs,
        ∃ k, chooseFrom (find_occurences s rule.lhs) k 0 = o := by
  refine ⟨fun k => ⟨chooseFrom_mem _ _ _ h3, apply_out_eq rule ⟨s, inp, out⟩ k h2 h3⟩,
    fun o ho => chooseFrom_surj _ _ o ho⟩

/-- C5 witness: the spec's example, rule `A ::= ~hello` on `xAy`. -/
theorem C5_apply_write_output_witness :
    apply ⟨"A".toList, "~hello".toList⟩ ⟨"xAy".toList, [], []⟩ 0 =
      some ⟨"xy".toList, [], "hello".toList⟩ := by
  have h := ((C5_apply_write_output ⟨"A".toList, "~hello".toList⟩ "xAy".toList [] []
    (by decide) (by decide)).1 0).2
  rw [h]
  decide

/-- C6: a `ReadInput` rule (rhs exactly `:::`) applied at the chosen
occurrence offset consumes exactly the first remaining input line `line`
and splices it in place of the matched occurrence; the rest of the input
is left for later applications, so lines are consumed one per application
in order.  Every occurrence offset is reachable by some choice value. -/
theorem C6_apply_read_input (rule : Rule) (s : Str) (line : Str) (rest : List Str) (out : Str)
    (h1 : rule.rhs = ":::".toList)
    (h3 : find_occurences s rule.lhs ≠ []) :
    (∀ k : Nat,
        chooseFrom (find_occurences s rule.lhs) k 0 ∈ find_occurences s rule.lhs ∧
          apply rule ⟨s, line :: rest, out⟩ k =
            some ⟨s.take (chooseFrom (find_occurences s rule.lhs) k 0) ++ line ++
                s.drop (chooseFrom (find_occurences s rule.lhs) k 0 + rule.lhs.length),
              rest, out⟩) ∧
      ∀ o ∈ find_occurences s rule.lhs,
        ∃ k, chooseFrom (find_occurences s rule.lhs) k 0 = o := by
  refine ⟨fun k => ⟨chooseFrom_mem _ _ _ h3,
    apply_in_eq rule ⟨s, line :: rest, out⟩ k line rest h1 rfl h3⟩,
    fun o ho => chooseFrom_surj _ _ o ho⟩

/-- C6 witness: the spec's example, rule `B ::= :::` on `xBy` with input
line `Q`. -/
theorem C6_apply_read_input_witness :
    apply ⟨"B".toList, ":::".toList⟩ ⟨"xBy".toList, ["Q".toList], []⟩ 0 =
      some ⟨"xQy".toList, [], []⟩ := by
  have h := ((C6_apply_read_input ⟨"B".toList, ":::".toList⟩ "xBy".toList "Q".toList [] []
    (by decide) (by decide)).1 0).2
  rw [h]
  decide

/-- C7 counterexample: a line whose left-hand side is empty does not make
rule-base construction fail with any error — `read_rulebase` returns
successfully, treating the line as the rulebase terminator.  There is no
`MalformedRuleError` anywhere in the code. -/
theorem C7_empty_lhs_not_error :
    read_rulebase ["::=".toList] = Except.ok ([] : List Rule) := by
  rfl

/-- C7 (amended): supplying a line with an empty left-hand side
terminates rulebase construction successfully (no error is raised, the
line acts as the terminator and later lines are not parsed as rules), and
every rule of a successfully constructed rulebase has a non-empty
pattern, so a rule with an empty pattern never reaches the engine. -/
theorem C7_no_empty_pattern :
    (∀ (lines : List Str) (rb : List Rule),
        read_rulebase lines = Except.ok rb → ∀ r ∈ rb, r.lhs ≠ []) ∧
      read_rulebase ["a::=b".toList, "::=".toList, "c::=d".toList] =
        Except.ok [⟨"a".toList, "b".toList⟩] := by
  exact ⟨fun lines rb h => readRulebaseAux_lhs_ne_nil lines 1 rb h, rfl⟩

/-- C7 witness: the invariant applied to a concretely parsed rulebase. -/
theorem C7_no_empty_pattern_witness :
    (Rule.mk "a".toList "b".toList).lhs ≠ [] :=
  C7_no_empty_pattern.1 ["a::=b".toList, "::=".toList] [Rule.mk "a".toList "b".toList]
    rfl (Rule.mk "a".toList "b".toList) (by decide)

/-- C8: with the single-rule rulebase `a ::= ` and initial string
`banana`, the loop terminates for every sequence of rule and occurrence
choices — four iterations always suffice (three rewrites plus the final
emptiness test) — and the final string is always `bnn`, with the console
state untouched. -/
theorem C8_execute_banana (cs : Nat → Nat) (fuel : Nat) (hf : 4 ≤ fuel) :
    execute fuel [⟨"a".toList, "".toList⟩] ⟨"banana".toList, [], []⟩ cs =
      some ⟨"bnn".toList, [], []⟩ := by
  have hc : ("banana".toList).count 'a' < fuel := by
    have h3 : ("banana".toList).count 'a' = 3 := by decide
    omega
  have he1 : (⟨"a".toList, "".toList⟩ : Rule) = ⟨['a'], []⟩ := by decide
  rw [he1, delete_a_execute fuel "banana".toList [] [] cs hc]
  decide

/-- C8 witness: a concrete choice stream and the minimal fuel. -/
theorem C8_execute_banana_witness :
    execute 4 [⟨"a".toList, "".toList⟩] ⟨"banana".toList, [], []⟩ (fun _ => 0) =
      some ⟨"bnn".toList, [], []⟩ :=
  C8_execute_banana (fun _ => 0) 4 (by decide)

/-- C9: when no rule is applicable to the current string, `execute`
returns at once with the state unchanged — same string, no input
consumed, nothing written to output — so re-invoking it on its own
result is a no-op. -/
theorem C9_execute_halted (rb : List Rule) (st : EState) (cs : Nat → Nat) (fuel : Nat)
    (h : applicable_rules rb st.s = []) :
    execute (fuel + 1) rb st cs = some st :=
  execute_halt rb st cs fuel h

/-- C9 witness: an inapplicable rulebase leaves a concrete state alone. -/
theorem C9_execute_halted_witness :
    execute 1 [⟨"z".toList, "w".toList⟩] ⟨"abc".toList, ["L".toList], "o".toList⟩
        (fun _ => 0) =
      some ⟨"abc".toList, ["L".toList], "o".toList⟩ :=
  C9_execute_halted [⟨"z".toList, "w".toList⟩] ⟨"abc".toList, ["L".toList], "o".toList⟩
    (fun _ => 0) 0 (by decide)

/-- C10: for a non-empty pattern the occurrence loop of
`find_occurences` terminates — any fuel beyond the string length is
enough, and the default fuel computes the function's value — while for
the empty pattern the remaining string never shrinks and the loop runs
out of any fuel, the image of the Python non-termination. -/
theorem C10_occurrence_scan_termination :
    (∀ (s p : Str) (off : Nat), p ≠ [] →
        ∀ fuel, s.length < fuel → (findOccAux fuel s p off).isSome) ∧
      (∀ (s p : Str), p ≠ [] →
        findOccAux (s.length + 1) s p 0 = some (find_occurences s p)) ∧
      (∀ (fuel : Nat) (s : Str) (off : Nat), findOccAux fuel s [] off = none) :=
  ⟨fun s p off hp fuel hf => findOccAux_isSome p hp fuel s off hf,
    fun s p hp => find_occurences_eq_some s p hp,
    findOccAux_nil_pattern⟩

/-- C10 witness: termination on a concrete non-empty pattern. -/
theorem C10_occurrence_scan_termination_witness :
    (findOccAux 3 "ab".toList "b".toList 0).isSome :=
  C10_occurrence_scan_termination.1 "ab".toList "b".toList 0 (by decide) 3 (by decide)

end Thue
